import Mathlib

/-!
Shallow embedding of the role-resolution core of the `build_AD_roles`
repository (`src/utils/role_mapper.py`, `src/utils/schema_validator.py`,
`src/utils/process_input.py`, `src/process_input.py`) together with proofs
about the embedded functions.

Conventions.  All identifiers are opaque strings, exactly as in the source.
A pandas `DataFrame` holding an edge table is embedded as a `List` of pairs
in row order; a Python `set` is embedded as a `Finset`.  Python's bounded
recursion is embedded with an explicit fuel parameter; the fuel budget used
by the wrappers is proved sufficient, so the embedded functions compute the
same results as the (terminating) source recursions.
-/

namespace BuildADRoles

/-- First-occurrence deduplication with an accumulator of already-seen
elements.  Models `pandas.unique` / `DataFrame.drop_duplicates` (both keep
the first occurrence). -/
def uniqAux {α : Type} [DecidableEq α] (seen : List α) : List α → List α
  | [] => []
  | x :: xs => if x ∈ seen then uniqAux seen xs else x :: uniqAux (x :: seen) xs

/-- First-occurrence deduplication, as performed by `pandas.unique` and
`drop_duplicates`. -/
def uniq {α : Type} [DecidableEq α] (l : List α) : List α := uniqAux [] l

/-- A row of the Groups DataFrame (`group_id`, `group_name`, and the
optional `description`: `none` models a missing description column / NaN
cell, in which case `create_role_mappings` falls back to a generated
string). -/
structure GroupRow where
  group_id : String
  group_name : String
  description : Option String
deriving DecidableEq, Repr

/-- A row of the Roles DataFrame produced by `RoleMapper.create_role_mappings`. -/
structure Role where
  role_id : String
  role_name : String
  description : String
  source : String
deriving DecidableEq, Repr

/-- The `builtin_groups.json` configuration: a JSON object mapping category
names to lists of eligible group names, in insertion order (Python dicts
preserve insertion order, and `RoleMapper` iterates `group_config.items()`). -/
structure GroupConfig where
  categories : List (String × List String)
deriving DecidableEq, Repr

/-- `self.group_config.get("Original_Role_Groups", [])`. -/
def GroupConfig.originalRoleGroups (cfg : GroupConfig) : List String :=
  ((cfg.categories.find? (fun p => p.1 == "Original_Role_Groups")).map Prod.snd).getD []

/-- The names contributed by the non-leader categories (the loop in
`RoleMapper.__init__` that updates `role_groups` with every category other
than `Original_Role_Groups`). -/
def GroupConfig.secondaryGroups (cfg : GroupConfig) : List String :=
  (cfg.categories.filter (fun p => ¬ p.1 == "Original_Role_Groups")).flatMap Prod.snd

/-- `self.role_groups`: the flattened collection of all role-eligible group
names (`Original_Role_Groups` plus every other category).  The source keeps
a Python set; only membership is ever queried, so a list models it. -/
def GroupConfig.roleGroups (cfg : GroupConfig) : List String :=
  cfg.originalRoleGroups ++ cfg.secondaryGroups

/-- The category lookup in the second loop of `create_role_mappings`:
`next((cat for cat, groups in self.group_config.items() if name in groups),
"Unknown")`. -/
def GroupConfig.categoryOf (cfg : GroupConfig) (name : String) : String :=
  ((cfg.categories.find? (fun p => name ∈ p.2)).map Prod.fst).getD "Unknown"

/-- The role record built for one group row in `create_role_mappings`:
`role_id` is the group's id, `role_name` its name, `description` the group's
description with the generated fallback, `source` the category. -/
def mkRole (g : GroupRow) (source : String) : Role :=
  { role_id := g.group_id
    role_name := g.group_name
    description := g.description.getD ("Role based on " ++ g.group_name ++ " group")
    source := source }

/-- The first loop of `create_role_mappings`: one role record per group row
whose name is in `Original_Role_Groups`, in row order. -/
def firstPass (cfg : GroupConfig) (groups : List GroupRow) : List Role :=
  (groups.filter (fun g => decide (g.group_name ∈ cfg.originalRoleGroups))).map
    (fun g => mkRole g "Original_Role_Groups")

/-- `mapped_groups = {role["role_name"] for role in role_data}`: the names
already mapped by the first loop.  The source computes this set once,
before the second loop, and never updates it inside that loop. -/
def mappedNames (cfg : GroupConfig) (groups : List GroupRow) : List String :=
  (firstPass cfg groups).map Role.role_name

/-- The second loop of `create_role_mappings`: one role record per group row
whose name is role-eligible and not among the first-pass names, with the
category found by scanning the configuration in insertion order. -/
def secondPass (cfg : GroupConfig) (groups : List GroupRow) : List Role :=
  (groups.filter
      (fun g => decide (g.group_name ∈ cfg.roleGroups ∧
        g.group_name ∉ mappedNames cfg groups))).map
    (fun g => mkRole g (cfg.categoryOf g.group_name))

/-- `RoleMapper.create_role_mappings`: first map every group row whose name
is in `Original_Role_Groups`; then map every group row whose name is
role-eligible and not among the names mapped by the first pass. -/
def create_role_mappings (cfg : GroupConfig) (groups : List GroupRow) : List Role :=
  firstPass cfg groups ++ secondPass cfg groups

/-! ### `RoleMapper.resolve_group_roles`

Hierarchy edges are `(parent_group_id, child_group_id)` pairs in row order.
The recursive helper `get_inherited_roles` walks from a group to its
parents; the Python recursion is embedded with a fuel parameter (`none`
models fuel exhaustion; the wrapper's budget is proved sufficient below). -/

/-- All group ids occurring in the hierarchy edge table, parents first —
`pd.concat([parent_group_id, child_group_id])` before `.unique()`. -/
def nodesOf (edges : List (String × String)) : List String :=
  edges.map Prod.fst ++ edges.map Prod.snd

/-- The set of group ids occurring in the hierarchy edge table. -/
def nodesFinset (edges : List (String × String)) : Finset String :=
  (nodesOf edges).toFinset

/-- Union of two Python sets, both modelled as duplicate-free lists:
`a.update(b)` keeps the elements of `a` and adds the members of `b` not
already present. -/
def unionSet (a b : List String) : List String :=
  a ++ b.filter (fun x => decide (x ∉ a))

/-- `get_inherited_roles(group_id, visited)` from `resolve_group_roles`:
a group already in `visited` contributes nothing; otherwise the group is
added to `visited`, the result starts from `{group_id}` when `group_id` is
a role id, and the recursive result for every parent is unioned in, each
parent receiving a copy of the updated visited set.  Both Python sets are
modelled as duplicate-free lists; the fuel parameter makes the recursion
structural (`none` models fuel exhaustion and is proved unreachable at the
wrapper's budget). -/
def getInheritedRoles (roleIds : List String) (edges : List (String × String)) :
    Nat → String → List String → Option (List String)
  | 0, _, _ => none
  | fuel + 1, g, visited =>
    if g ∈ visited then some []
    else
      let base : List String := if g ∈ roleIds then [g] else []
      let parents := (edges.filter (fun e => e.2 == g)).map Prod.fst
      parents.foldlM
        (fun acc p =>
          (getInheritedRoles roleIds edges fuel p (g :: visited)).map (unionSet acc))
        base

/-- The fuel budget used by the wrapper: one more than the number of
distinct group ids in the edge table (proved sufficient below). -/
def giFuel (edges : List (String × String)) : Nat := (nodesFinset edges).card + 1

/-- `RoleMapper.resolve_group_roles`: for every group id occurring in the
hierarchy edges (first occurrence order, parents first), emit one
`(group_id, role_id)` row for every role id the group holds or inherits
that is a known role id.  (The `processed_groups` guard in the source never
fires because the iterated ids are already unique.) -/
def resolve_group_roles (roleIds : List String) (edges : List (String × String)) :
    List (String × String) :=
  let allGroups := uniq (nodesOf edges)
  allGroups.flatMap (fun g =>
    match getInheritedRoles roleIds edges (giFuel edges) g [] with
    | none => []
    | some s => (s.filter (fun r => decide (r ∈ roleIds))).map (fun r => (g, r)))

/-! ### Termination and basic properties of the ancestor walk -/

/-- The termination measure of the ancestor walk: how many group ids the
per-branch visited set can still absorb. -/
def giMeasure (edges : List (String × String)) (g : String) (visited : List String) : Nat :=
  ((insert g (nodesFinset edges)) \ visited.toFinset).card

/-- `RoleMapper.resolve_user_roles`: inner equi-join of the membership table
and the group-role table on `group_id`, projected to `(user_id, role_id)`,
with first-occurrence deduplication (`drop_duplicates`). -/
def resolve_user_roles (userGroups : List (String × String))
    (groupRoles : List (String × String)) : List (String × String) :=
  uniq (userGroups.flatMap (fun m =>
    (groupRoles.filter (fun gr => gr.1 == m.2)).map (fun gr => (m.1, gr.2))))

/-! ### Data model of `schema_validator.py`

A pandas DataFrame is embedded as a list of column names plus a list of
rows; each row is an association list from column name to optional cell
(`none` models a NaN / missing cell).  Validation messages are embedded as
an inductive type whose constructors carry the data interpolated into the
source's message strings; each constructor is documented with the exact
message it renders to. -/

/-- A pandas DataFrame: column names and rows of nullable string cells. -/
structure Table where
  cols : List String
  rows : List (List (String × Option String))
deriving DecidableEq, Repr

/-- Cell lookup: `row[col]`, with `none` for a NaN or absent cell. -/
def getCell (row : List (String × Option String)) (c : String) : Option String :=
  match row.find? (fun kv => kv.1 == c) with
  | some kv => kv.2
  | none => none

/-- `DataFrame.empty`: true when either axis has length zero. -/
def Table.isEmpty (t : Table) : Bool := t.rows.isEmpty || t.cols.isEmpty

/-- The validation messages produced by `SchemaValidator`.  Constructors
carry the data interpolated into the source's f-strings:
`emptyTable t` ↦ "DataFrame for {t} is empty";
`missingField f` ↦ "Missing required field: {f}";
`noUserIdentifier` ↦ "At least one of user_id, username, or email must be present";
`noNameFields` ↦ "Either full_name or both first_name and last_name must be present";
`badDatetime f` ↦ "Invalid datetime format in {f}";
`badDatetimeNoTz f` ↦ "Invalid datetime format in {f} - must be ISO 8601 with timezone";
`noGroupIdentifier` ↦ "At least one of group_id or group_name must be present";
`descriptionRequiredGroups` ↦ "Description is required when group_name is present";
`noRoleIdentifier` ↦ "At least one of role_id or role_name must be present";
`descriptionRequiredRoles` ↦ "Description is required for roles";
`missingColumn c` ↦ "Missing required column: {c}";
`nullColumn c` ↦ "Column {c} contains null values";
`invalidUserIds s` ↦ "Invalid user_ids in User_Groups: {s}";
`invalidGroupIds s` ↦ "Invalid group_ids in User_Groups: {s}";
`invalidParentIds s` ↦ "Invalid parent_group_ids: {s}";
`invalidChildIds s` ↦ "Invalid child_group_ids: {s}";
`circularReference` ↦ "Circular reference detected in group relationships";
`unknownSchema t` ↦ "Unknown schema: {t}". -/
inductive VErr where
  | emptyTable (t : String)
  | missingField (f : String)
  | noUserIdentifier
  | noNameFields
  | badDatetime (f : String)
  | badDatetimeNoTz (f : String)
  | noGroupIdentifier
  | descriptionRequiredGroups
  | noRoleIdentifier
  | descriptionRequiredRoles
  | missingColumn (c : String)
  | nullColumn (c : String)
  | invalidUserIds (s : Finset String)
  | invalidGroupIds (s : Finset String)
  | invalidParentIds (s : Finset String)
  | invalidChildIds (s : Finset String)
  | circularReference
  | unknownSchema (t : String)
deriving DecidableEq

/-- Modelled from the spec: `pd.to_datetime` (pandas is an external
collaborator) restricted to the ISO-8601 profile used by this repository:
a `YYYY-MM-DDTHH:MM:SS` core followed by an optional timezone suffix
(`Z` or `±HH:MM`).  Validation only observes parse success and presence of
timezone information. -/
def isTzSuffix : List Char → Bool
  | [] => true
  | ['Z'] => true
  | c :: rest =>
    (c == '+' || c == '-') &&
      (match rest with
       | [h1, h2, c2, m1, m2] => h1.isDigit && h2.isDigit && c2 == ':' && m1.isDigit && m2.isDigit
       | _ => false)

/-- Modelled from the spec: ISO-8601 datetime with optional timezone
suffix, see `isTzSuffix`. -/
def isIsoDatetime (s : String) : Bool :=
  match s.toList with
  | y1 :: y2 :: y3 :: y4 :: s1 :: mo1 :: mo2 :: s2 :: d1 :: d2 :: t ::
      h1 :: h2 :: c1 :: mi1 :: mi2 :: c2 :: se1 :: se2 :: rest =>
    y1.isDigit && y2.isDigit && y3.isDigit && y4.isDigit && s1 == '-' &&
      mo1.isDigit && mo2.isDigit && s2 == '-' && d1.isDigit && d2.isDigit &&
      t == 'T' && h1.isDigit && h2.isDigit && c1 == ':' && mi1.isDigit &&
      mi2.isDigit && c2 == ':' && se1.isDigit && se2.isDigit && isTzSuffix rest
  | _ => false

/-- Parse success of one cell under `pd.to_datetime`: a NaN cell parses
(to NaT). -/
def cellParses (cell : Option String) : Bool :=
  match cell with
  | none => true
  | some s => isIsoDatetime s

/-- Presence of timezone information on one parsed cell: a NaT (missing)
cell has `tzinfo is None`, and a core-only datetime carries no timezone. -/
def cellHasTz (cell : Option String) : Bool :=
  match cell with
  | none => false
  | some s => decide (19 < s.toList.length)

/-- `SchemaValidator._validate_users_schema`: required-column checks, the
column-level identifier and name checks, then per-column datetime
validation (unparsable column ↦ `badDatetime`; parsable but some cell
without timezone ↦ `badDatetimeNoTz`). -/
def validate_users (t : Table) : List VErr :=
  (["enabled", "created_at", "updated_at", "last_login_at"].filterMap
    (fun f => if f ∈ t.cols then none else some (VErr.missingField f))) ++
  (if "user_id" ∈ t.cols ∨ "username" ∈ t.cols ∨ "email" ∈ t.cols then []
   else [VErr.noUserIdentifier]) ++
  (if "full_name" ∈ t.cols ∨ ("first_name" ∈ t.cols ∧ "last_name" ∈ t.cols) then []
   else [VErr.noNameFields]) ++
  (["created_at", "updated_at", "last_login_at"].flatMap (fun f =>
    if f ∈ t.cols then
      if t.rows.all (fun r => cellParses (getCell r f)) then
        if t.rows.any (fun r => ! cellHasTz (getCell r f)) then [VErr.badDatetimeNoTz f]
        else []
      else [VErr.badDatetime f]
    else []))

/-- `SchemaValidator._validate_groups_schema`. -/
def validate_groups (t : Table) : List VErr :=
  (if "group_id" ∈ t.cols ∨ "group_name" ∈ t.cols then [] else [VErr.noGroupIdentifier]) ++
  (if "group_name" ∈ t.cols ∧ "description" ∉ t.cols then [VErr.descriptionRequiredGroups]
   else [])

/-- `SchemaValidator._validate_roles_schema`. -/
def validate_roles (t : Table) : List VErr :=
  (if "role_id" ∈ t.cols ∨ "role_name" ∈ t.cols then [] else [VErr.noRoleIdentifier]) ++
  (if "description" ∈ t.cols then [] else [VErr.descriptionRequiredRoles])

/-- The shared shape of the four pair-table validators
(`_validate_user_groups_schema` and friends): each required column must be
present and free of null cells. -/
def validateRequiredCols (colNames : List String) (t : Table) : List VErr :=
  colNames.flatMap (fun c =>
    if c ∉ t.cols then [VErr.missingColumn c]
    else if t.rows.any (fun r => (getCell r c).isNone) then [VErr.nullColumn c]
    else [])

/-- `SchemaValidator.validate_dataframe`: empty-table short-circuit, then
dispatch on the schema name. -/
def validate_dataframe (t : Table) (schema : String) : List VErr :=
  if t.isEmpty then [VErr.emptyTable schema]
  else if schema == "Users" then validate_users t
  else if schema == "Groups" then validate_groups t
  else if schema == "Roles" then validate_roles t
  else if schema == "User_Groups" then validateRequiredCols ["user_id", "group_id"] t
  else if schema == "Group_Groups" then
    validateRequiredCols ["parent_group_id", "child_group_id"] t
  else if schema == "User_Roles" then validateRequiredCols ["user_id", "role_id"] t
  else if schema == "Group_Roles" then validateRequiredCols ["group_id", "role_id"] t
  else [VErr.unknownSchema schema]

/-! ### Cycle detection (`SchemaValidator._has_circular_references`)

The Python function builds a parent→children adjacency (a dict of sets),
then runs a depth-first search from every unvisited parent with a global
`visited` set and a current-stack `path` set.  The mutable sets are
embedded by threading `visited` through the calls and passing `path` as a
value (on a `False` return the Python code restores `path` exactly, and on
a `True` return the whole search aborts, so value passing is faithful).
Recursion depth is bounded by fuel; the wrapper's budget is proved
sufficient. -/

/-- The children of a node in first-occurrence edge order (`graph[parent]`
is a Python set, so duplicate edges collapse; iteration order of the set
is unspecified and embedded as first-occurrence order). -/
def childrenOf (edges : List (String × String)) (node : String) : List String :=
  uniq ((edges.filter (fun e => e.1 == node)).map Prod.snd)

/-- The inner `for neighbor in graph[node]` loop of `has_cycle`:
an unvisited neighbour recurses, a visited neighbour on the current path
reports a cycle, any other visited neighbour is skipped. -/
def dfsLoop (step : String → List String → Option (Bool × List String))
    (path : List String) : List String → List String → Option (Bool × List String)
  | [], v => some (false, v)
  | c :: rest, v =>
    if c ∈ v then
      if c ∈ path then some (true, v) else dfsLoop step path rest v
    else
      match step c v with
      | none => none
      | some (true, v') => some (true, v')
      | some (false, v') => dfsLoop step path rest v'

/-- `has_cycle(node, visited, path)`: mark the node visited and on the
path, then scan its children. -/
def hasCycleNode (edges : List (String × String)) :
    Nat → String → List String → List String → Option (Bool × List String)
  | 0, _, _, _ => none
  | fuel + 1, node, visited, path =>
    dfsLoop (fun c v => hasCycleNode edges fuel c v (node :: path)) (node :: path)
      (childrenOf edges node) (node :: visited)

/-- The outer `for node in graph` loop of `_has_circular_references`:
run the DFS from every not-yet-visited parent node. -/
def hasCyclesTop (edges : List (String × String)) (fuel : Nat) :
    List String → List String → Option (Bool × List String)
  | [], v => some (false, v)
  | k :: ks, v =>
    if k ∈ v then hasCyclesTop edges fuel ks v
    else
      match hasCycleNode edges fuel k v [] with
      | none => none
      | some (true, v') => some (true, v')
      | some (false, v') => hasCyclesTop edges fuel ks v'

/-- The fuel budget for the DFS: one more than the number of distinct
group ids in the edge table (proved sufficient below). -/
def dfsFuel (edges : List (String × String)) : Nat := (nodesFinset edges).card + 1

/-- `SchemaValidator._has_circular_references` over the hierarchy edge
rows.  The `none` fallback is unreachable at the wrapper's fuel budget
(proved below). -/
def has_circular_references (edges : List (String × String)) : Bool :=
  if edges.isEmpty then false
  else
    match hasCyclesTop edges (dfsFuel edges) (uniq (edges.map Prod.fst)) [] with
    | some (b, _) => b
    | none => false

/-- The parent→child step relation of the hierarchy graph. -/
def Edge (edges : List (String × String)) (a b : String) : Prop := (a, b) ∈ edges

/-- A directed cycle (of length ≥ 1 edges) exists in the hierarchy graph. -/
def hasDirectedCycle (edges : List (String × String)) : Prop :=
  ∃ y, Relation.TransGen (Edge edges) y y

/-- Reachability along hierarchy edges (zero or more steps). -/
def Reaches (edges : List (String × String)) (a b : String) : Prop :=
  Relation.ReflTransGen (Edge edges) a b

/-- A node is safe when no directed cycle is reachable from it.  Nodes the
DFS has finished (visited and off the current path) are exactly the safe
ones. -/
def Safe (edges : List (String × String)) (x : String) : Prop :=
  ∀ y, Reaches edges x y → ¬ Relation.TransGen (Edge edges) y y

/-- `SchemaValidator.validate_relationships`, at the entity level: the
referenced id sets and the two edge tables are passed directly (the source
reads them off the DataFrames' columns).  Order of the collected errors
matches the source. -/
def validate_relationships (userIds groupIds : Finset String)
    (memberships hierarchy : List (String × String)) : List VErr :=
  (if (memberships.map Prod.fst).toFinset \ userIds = ∅ then []
   else [VErr.invalidUserIds ((memberships.map Prod.fst).toFinset \ userIds)]) ++
  (if (memberships.map Prod.snd).toFinset \ groupIds = ∅ then []
   else [VErr.invalidGroupIds ((memberships.map Prod.snd).toFinset \ groupIds)]) ++
  (if hierarchy.isEmpty then []
   else
    (if (hierarchy.map Prod.fst).toFinset \ groupIds = ∅ then []
     else [VErr.invalidParentIds ((hierarchy.map Prod.fst).toFinset \ groupIds)]) ++
    (if (hierarchy.map Prod.snd).toFinset \ groupIds = ∅ then []
     else [VErr.invalidChildIds ((hierarchy.map Prod.snd).toFinset \ groupIds)]) ++
    (if has_circular_references hierarchy then [VErr.circularReference] else []))

/-! ### The pipeline gate (`src/utils/process_input.py`)

`process_input` reads the four input tables, collects the per-table schema
errors of exactly those four tables (it never calls
`validate_relationships` or `validate_sheets`), raises `ValueError` when
the collected list is non-empty, and otherwise proceeds to
`create_role_mappings` / `resolve_group_roles` / `resolve_user_roles`. -/

/-- The validation report collected by `process_input` (lines 50–59):
schema errors of the four input tables, in that order. -/
def process_input_validation_errors (users groups userGroups groupGroups : Table) :
    List VErr :=
  validate_dataframe users "Users" ++ validate_dataframe groups "Groups" ++
    validate_dataframe userGroups "User_Groups" ++
    validate_dataframe groupGroups "Group_Groups"

/-- Whether `process_input` reaches resolution (`create_role_mappings`,
line 69): true exactly when the collected report is empty, because a
non-empty report raises `ValueError` at line 65. -/
def process_input_invokes_resolution (users groups userGroups groupGroups : Table) :
    Bool :=
  (process_input_validation_errors users groups userGroups groupGroups).isEmpty

/-! ### Concrete fixtures used by the claim theorems -/

/-- The configuration of the spec's concrete scenario: leader category
`Original_Role_Groups = ["Administrators"]`, one secondary category
containing `"Users"`. -/
def cfgScenario : GroupConfig :=
  ⟨[("Original_Role_Groups", ["Administrators"]), ("Other_Groups", ["Users"])]⟩

/-- The three groups of the spec's concrete scenario. -/
def groupsScenario : List GroupRow :=
  [⟨"G1", "Administrators", some "Admin Group"⟩,
   ⟨"G2", "Users", some "Regular Users"⟩,
   ⟨"G3", "Custom", some "Custom Group"⟩]

/-- The hierarchy edges of the spec's concrete scenario: G1→G2, G2→G3. -/
def edgesScenario : List (String × String) := [("G1", "G2"), ("G2", "G3")]

/-- A well-formed Users table (one fully populated row). -/
def usersCyc : Table :=
  ⟨["user_id", "username", "email", "full_name", "enabled",
    "created_at", "updated_at", "last_login_at"],
   [[("user_id", some "U1"), ("username", some "user1"),
     ("email", some "u1@example.com"), ("full_name", some "User One"),
     ("enabled", some "yes"), ("created_at", some "2024-03-20T12:00:00Z"),
     ("updated_at", some "2024-03-20T12:00:00Z"),
     ("last_login_at", some "2024-03-20T12:00:00Z")]]⟩

/-- A well-formed Groups table with two groups. -/
def groupsCyc : Table :=
  ⟨["group_id", "group_name", "description"],
   [[("group_id", some "G1"), ("group_name", some "Administrators"),
     ("description", some "d1")],
    [("group_id", some "G2"), ("group_name", some "Users"),
     ("description", some "d2")]]⟩

/-- A well-formed User_Groups table. -/
def userGroupsCyc : Table :=
  ⟨["user_id", "group_id"], [[("user_id", some "U1"), ("group_id", some "G1")]]⟩

/-- A Group_Groups table whose two rows form the 2-cycle G1→G2→G1. -/
def groupGroupsCyc : Table :=
  ⟨["parent_group_id", "child_group_id"],
   [[("parent_group_id", some "G1"), ("child_group_id", some "G2")],
    [("parent_group_id", some "G2"), ("child_group_id", some "G1")]]⟩

/-- The edge list encoded by `groupGroupsCyc`. -/
def edgesCyc : List (String × String) := [("G1", "G2"), ("G2", "G1")]

/-- A Users row whose three identifier cells are all null. -/
def rowNoId : List (String × Option String) :=
  [("user_id", none), ("username", none), ("email", none),
   ("full_name", some "Ghost User"), ("enabled", some "yes"),
   ("created_at", some "2024-03-20T12:00:00Z"),
   ("updated_at", some "2024-03-20T12:00:00Z"),
   ("last_login_at", some "2024-03-20T12:00:00Z")]

/-- A Users table whose identifier columns all exist but whose single row
populates none of them. -/
def usersNoIdRow : Table :=
  ⟨["user_id", "username", "email", "full_name", "enabled",
    "created_at", "updated_at", "last_login_at"], [rowNoId]⟩

/-- A Users table carrying only the `email` identifier column. -/
def usersEmailOnly : Table :=
  ⟨["email", "full_name", "enabled", "created_at", "updated_at", "last_login_at"],
   [[("email", some "only@example.com"), ("full_name", some "Only Email"),
     ("enabled", some "yes"), ("created_at", some "2024-03-20T12:00:00Z"),
     ("updated_at", some "2024-03-20T12:00:00Z"),
     ("last_login_at", some "2024-03-20T12:00:00Z")]]⟩

/-- A configuration whose secondary category contains `"Users"` and whose
leader category does not. -/
def cfgDup : GroupConfig :=
  ⟨[("Original_Role_Groups", ["Admins"]), ("Extra_Groups", ["Users"])]⟩

/-- Two distinct group rows sharing the secondary-only name `"Users"`. -/
def groupsDup : List GroupRow :=
  [⟨"G1", "Users", some "d1"⟩, ⟨"G2", "Users", some "d2"⟩]

/-! ### Supporting lemmas -/

theorem mem_uniqAux {α : Type} [DecidableEq α] (l : List α) :
    ∀ seen x, x ∈ uniqAux seen l ↔ x ∈ l ∧ x ∉ seen := by
  induction l with
  | nil => intro seen x; simp [uniqAux]
  | cons a l ih =>
    intro seen x
    by_cases ha : a ∈ seen
    · simp only [uniqAux, if_pos ha, ih, List.mem_cons]
      constructor
      · rintro ⟨hx, hxs⟩; exact ⟨Or.inr hx, hxs⟩
      · rintro ⟨rfl | hx, hxs⟩
        · exact absurd ha hxs
        · exact ⟨hx, hxs⟩
    · simp only [uniqAux, if_neg ha, List.mem_cons, ih, not_or]
      constructor
      · rintro (rfl | ⟨hx, hxa, hxs⟩)
        · exact ⟨Or.inl rfl, ha⟩
        · exact ⟨Or.inr hx, hxs⟩
      · rintro ⟨rfl | hx, hxs⟩
        · exact Or.inl rfl
        · by_cases hxa : x = a
          · exact Or.inl hxa
          · exact Or.inr ⟨hx, hxa, hxs⟩

theorem mem_uniq {α : Type} [DecidableEq α] {l : List α} {x : α} :
    x ∈ uniq l ↔ x ∈ l := by
  simp [uniq, mem_uniqAux]

theorem nodup_uniqAux {α : Type} [DecidableEq α] (l : List α) :
    ∀ seen, (uniqAux seen l).Nodup := by
  induction l with
  | nil => intro seen; simp [uniqAux]
  | cons a l ih =>
    intro seen
    by_cases ha : a ∈ seen
    · simpa [uniqAux, if_pos ha] using ih seen
    · simp only [uniqAux, if_neg ha, List.nodup_cons]
      refine ⟨fun h => ?_, ih (a :: seen)⟩
      exact ((mem_uniqAux l (a :: seen) a).mp h).2 (List.mem_cons_self a seen)

theorem nodup_uniq {α : Type} [DecidableEq α] (l : List α) : (uniq l).Nodup :=
  nodup_uniqAux l []

theorem mem_unionSet {a b : List String} {x : String} :
    x ∈ unionSet a b ↔ x ∈ a ∨ x ∈ b := by
  constructor
  · intro h
    rcases List.mem_append.mp h with h | h
    · exact Or.inl h
    · exact Or.inr (List.mem_of_mem_filter h)
  · intro h
    rcases h with h | h
    · exact List.mem_append.mpr (Or.inl h)
    · by_cases ha : x ∈ a
      · exact List.mem_append.mpr (Or.inl ha)
      · refine List.mem_append.mpr (Or.inr (List.mem_filter.mpr ⟨h, ?_⟩))
        simpa using ha

theorem giMeasure_step {edges : List (String × String)} {g p : String}
    {visited : List String} (hp : p ∈ nodesFinset edges) (hg : g ∉ visited) :
    giMeasure edges p (g :: visited) < giMeasure edges g visited := by
  unfold giMeasure
  have hins : insert p (nodesFinset edges) = nodesFinset edges := Finset.insert_eq_self.mpr hp
  rw [hins]
  have hgmem : g ∈ insert g (nodesFinset edges) \ visited.toFinset := by
    simp [Finset.mem_sdiff, List.mem_toFinset, hg]
  have hsub : nodesFinset edges \ (g :: visited).toFinset ⊆
      (insert g (nodesFinset edges) \ visited.toFinset).erase g := by
    intro x hx
    rcases Finset.mem_sdiff.mp hx with ⟨hx1, hx2⟩
    simp only [List.toFinset_cons, Finset.mem_insert, not_or, List.mem_toFinset] at hx2
    refine Finset.mem_erase.mpr ⟨hx2.1, Finset.mem_sdiff.mpr ⟨Finset.mem_insert_of_mem hx1, ?_⟩⟩
    simpa [List.mem_toFinset] using hx2.2
  calc (nodesFinset edges \ (g :: visited).toFinset).card
      ≤ ((insert g (nodesFinset edges) \ visited.toFinset).erase g).card :=
        Finset.card_le_card hsub
    _ < (insert g (nodesFinset edges) \ visited.toFinset).card :=
        Finset.card_erase_lt_of_mem hgmem

/-- If every step of the option-valued fold succeeds, the fold succeeds. -/
theorem foldlM_union_some {h : String → Option (List String)} :
    ∀ (ps : List String), (∀ p ∈ ps, ∃ t, h p = some t) →
      ∀ acc, ∃ s, ps.foldlM (fun acc p => (h p).map (unionSet acc)) acc = some s := by
  intro ps
  induction ps with
  | nil => intro _ acc; exact ⟨acc, rfl⟩
  | cons p ps ih =>
    intro hps acc
    obtain ⟨t, ht⟩ := hps p (List.mem_cons_self p ps)
    obtain ⟨s, hs⟩ := ih (fun q hq => hps q (List.mem_cons_of_mem _ hq)) (unionSet acc t)
    exact ⟨s, by simp [List.foldlM_cons, ht, hs]⟩

/-- The accumulator of the unioning fold is contained in any successful
result. -/
theorem foldlM_union_subset {h : String → Option (List String)} :
    ∀ (ps : List String) (acc s : List String),
      ps.foldlM (fun acc p => (h p).map (unionSet acc)) acc = some s →
      ∀ x ∈ acc, x ∈ s := by
  intro ps
  induction ps with
  | nil => intro acc s hfold x hx; cases hfold; exact hx
  | cons p ps ih =>
    intro acc s hfold x hx
    simp only [List.foldlM_cons] at hfold
    rcases hp : h p with _ | t
    · rw [hp] at hfold; cases hfold
    · rw [hp] at hfold
      simp only [Option.map_some', Option.bind_eq_bind, Option.some_bind] at hfold
      exact ih (unionSet acc t) s hfold x (mem_unionSet.mpr (Or.inl hx))

/-- Fuel sufficiency of the ancestor walk: with more fuel than the measure,
`get_inherited_roles` completes.  This is the termination argument for the
source recursion: each recursive call strictly grows the per-branch visited
set inside the finite universe of group ids. -/
theorem getInheritedRoles_some (roleIds : List String) (edges : List (String × String)) :
    ∀ (fuel : Nat) (g : String) (visited : List String),
      giMeasure edges g visited < fuel →
      ∃ s, getInheritedRoles roleIds edges fuel g visited = some s := by
  intro fuel
  induction fuel with
  | zero => intro g visited h; exact absurd h (Nat.not_lt_zero _)
  | succ fuel ih =>
    intro g visited hlt
    by_cases hg : g ∈ visited
    · exact ⟨[], by simp [getInheritedRoles, hg]⟩
    · have hstep : ∀ p ∈ (edges.filter (fun e => e.2 == g)).map Prod.fst,
          ∃ t, getInheritedRoles roleIds edges fuel p (g :: visited) = some t := by
        intro p hp
        have hpnode : p ∈ nodesFinset edges := by
          rcases List.mem_map.mp hp with ⟨e, he, rfl⟩
          have he' : e ∈ edges := List.mem_of_mem_filter he
          simp only [nodesFinset, nodesOf, List.mem_toFinset, List.mem_append, List.mem_map]
          exact Or.inl ⟨e, he', rfl⟩
        have hmlt : giMeasure edges p (g :: visited) < fuel := by
          have h1 := giMeasure_step hpnode hg
          omega
        exact ih p (g :: visited) hmlt
      obtain ⟨s, hs⟩ := foldlM_union_some _ hstep (if g ∈ roleIds then [g] else [])
      exact ⟨s, by simp only [getInheritedRoles, if_neg hg]; exact hs⟩

theorem sdiff_cons_card_lt {edges : List (String × String)} {g : String}
    {visited : List String} (hg : g ∈ nodesFinset edges) (hgv : g ∉ visited) :
    (nodesFinset edges \ (g :: visited).toFinset).card <
      (nodesFinset edges \ visited.toFinset).card := by
  have hgmem : g ∈ nodesFinset edges \ visited.toFinset := by
    simp [Finset.mem_sdiff, List.mem_toFinset, hg, hgv]
  have hsub : nodesFinset edges \ (g :: visited).toFinset ⊆
      (nodesFinset edges \ visited.toFinset).erase g := by
    intro x hx
    rcases Finset.mem_sdiff.mp hx with ⟨hx1, hx2⟩
    simp only [List.toFinset_cons, Finset.mem_insert, not_or, List.mem_toFinset] at hx2
    exact Finset.mem_erase.mpr ⟨hx2.1, Finset.mem_sdiff.mpr ⟨hx1, by
      simpa [List.mem_toFinset] using hx2.2⟩⟩
  calc (nodesFinset edges \ (g :: visited).toFinset).card
      ≤ ((nodesFinset edges \ visited.toFinset).erase g).card := Finset.card_le_card hsub
    _ < (nodesFinset edges \ visited.toFinset).card := Finset.card_erase_lt_of_mem hgmem

/-- Total fuel sufficiency of the ancestor walk, for an arbitrary start
group: when the walk recurses at all, the start group occurs in the edge
table, so the visited set grows strictly inside the finite universe of
group ids occurring in the edges. -/
theorem getInheritedRoles_total (roleIds : List String) (edges : List (String × String)) :
    ∀ (fuel : Nat) (g : String) (visited : List String),
      (nodesFinset edges \ visited.toFinset).card < fuel →
      ∃ s, getInheritedRoles roleIds edges fuel g visited = some s := by
  intro fuel
  induction fuel with
  | zero => intro g visited h; exact absurd h (Nat.not_lt_zero _)
  | succ fuel ih =>
    intro g visited hlt
    by_cases hg : g ∈ visited
    · exact ⟨[], by simp [getInheritedRoles, hg]⟩
    · have hstep : ∀ p ∈ (edges.filter (fun e => e.2 == g)).map Prod.fst,
          ∃ t, getInheritedRoles roleIds edges fuel p (g :: visited) = some t := by
        intro p hp
        have hgnode : g ∈ nodesFinset edges := by
          rcases List.mem_map.mp hp with ⟨e, he, rfl⟩
          have he' : e ∈ edges := List.mem_of_mem_filter he
          have hkey : e.2 = g := by simpa using (List.mem_filter.mp he).2
          simp only [nodesFinset, nodesOf, List.mem_toFinset, List.mem_append, List.mem_map]
          exact Or.inr ⟨e, he', hkey⟩
        have hmlt : (nodesFinset edges \ (g :: visited).toFinset).card < fuel := by
          have h1 := sdiff_cons_card_lt hgnode hg
          omega
        exact ih p (g :: visited) hmlt
      obtain ⟨s, hs⟩ := foldlM_union_some _ hstep (if g ∈ roleIds then [g] else [])
      exact ⟨s, by simp only [getInheritedRoles, if_neg hg]; exact hs⟩

/-- A group that is itself a role id appears in the result of a successful
ancestor walk started at it. -/
theorem getInheritedRoles_self_mem {roleIds : List String}
    {edges : List (String × String)} {fuel : Nat} {g : String} {visited s : List String}
    (hg : g ∉ visited) (hrole : g ∈ roleIds)
    (h : getInheritedRoles roleIds edges (fuel + 1) g visited = some s) : g ∈ s := by
  simp only [getInheritedRoles, if_neg hg, if_pos hrole] at h
  exact foldlM_union_subset _ _ _ h g (List.mem_singleton.mpr rfl)

/-- A direct role holder that occurs in the hierarchy edge table keeps its
direct role in the closed table. -/
theorem resolve_group_roles_mem_direct {roleIds : List String}
    {edges : List (String × String)} {g : String}
    (hrole : g ∈ roleIds) (hnode : g ∈ nodesOf edges) :
    (g, g) ∈ resolve_group_roles roleIds edges := by
  have hgnf : g ∈ nodesFinset edges := List.mem_toFinset.mpr hnode
  have hmeas : giMeasure edges g [] < giFuel edges := by
    unfold giMeasure giFuel
    rw [Finset.insert_eq_self.mpr hgnf]
    simp
  obtain ⟨s, hs⟩ := getInheritedRoles_some roleIds edges (giFuel edges) g [] hmeas
  have hgs : g ∈ s := by
    have : getInheritedRoles roleIds edges ((nodesFinset edges).card + 1) g [] = some s := hs
    exact getInheritedRoles_self_mem (List.not_mem_nil g) hrole this
  unfold resolve_group_roles
  refine List.mem_flatMap.mpr ⟨g, mem_uniq.mpr hnode, ?_⟩
  rw [hs]
  refine List.mem_map.mpr ⟨g, List.mem_filter.mpr ⟨hgs, ?_⟩, rfl⟩
  simpa using hrole

/-- Membership characterisation of the user-role join: a `(user, role)` row
is produced exactly when the user belongs to some group that holds the
role. -/
theorem resolve_user_roles_mem {userGroups groupRoles : List (String × String)}
    {u r : String} :
    (u, r) ∈ resolve_user_roles userGroups groupRoles ↔
      ∃ g, (u, g) ∈ userGroups ∧ (g, r) ∈ groupRoles := by
  unfold resolve_user_roles
  rw [mem_uniq, List.mem_flatMap]
  constructor
  · rintro ⟨m, hm, hmem⟩
    rcases List.mem_map.mp hmem with ⟨gr, hgr, heq⟩
    rcases List.mem_filter.mp hgr with ⟨hgr', hkey⟩
    have hkey' : gr.1 = m.2 := by simpa using hkey
    have hu : m.1 = u := congrArg Prod.fst heq
    have hr : gr.2 = r := congrArg Prod.snd heq
    refine ⟨m.2, ?_, ?_⟩
    · rwa [← hu, Prod.mk.eta]
    · rwa [← hkey', ← hr, Prod.mk.eta]
  · rintro ⟨g, hug, hgr⟩
    refine ⟨(u, g), hug, List.mem_map.mpr ⟨(g, r), List.mem_filter.mpr ⟨hgr, by simp⟩, rfl⟩⟩

/-- The user-role join output is duplicate-free. -/
theorem resolve_user_roles_nodup (userGroups groupRoles : List (String × String)) :
    (resolve_user_roles userGroups groupRoles).Nodup :=
  nodup_uniq _

/-- The names mapped by the first pass are the names of group rows that
match the leader category. -/
theorem mem_mappedNames {cfg : GroupConfig} {groups : List GroupRow} {n : String} :
    n ∈ mappedNames cfg groups ↔
      ∃ g ∈ groups, g.group_name = n ∧ n ∈ cfg.originalRoleGroups := by
  unfold mappedNames firstPass
  constructor
  · intro h
    rcases List.mem_map.mp h with ⟨r, hr, hrn⟩
    rcases List.mem_map.mp hr with ⟨g, hg, rfl⟩
    rcases List.mem_filter.mp hg with ⟨hg', horig⟩
    have horig' : g.group_name ∈ cfg.originalRoleGroups := by simpa using horig
    have hname : (mkRole g "Original_Role_Groups").role_name = g.group_name := rfl
    exact ⟨g, hg', by rw [← hrn, hname], by rw [← hrn, hname]; exact horig'⟩
  · rintro ⟨g, hg, rfl, horig⟩
    exact List.mem_map.mpr ⟨mkRole g "Original_Role_Groups",
      List.mem_map.mpr ⟨g, List.mem_filter.mpr ⟨hg, by simpa using horig⟩, rfl⟩, rfl⟩

/-- Every role record built by `create_role_mappings` whose name is in the
leader category comes from the first pass and carries the leader source. -/
theorem create_role_mappings_leader_source {cfg : GroupConfig} {groups : List GroupRow}
    {r : Role} (hr : r ∈ create_role_mappings cfg groups)
    (hn : r.role_name ∈ cfg.originalRoleGroups) : r.source = "Original_Role_Groups" := by
  rcases List.mem_append.mp hr with h | h
  · rcases List.mem_map.mp h with ⟨g, _, rfl⟩
    rfl
  · exfalso
    rcases List.mem_map.mp h with ⟨g, hg, rfl⟩
    rcases List.mem_filter.mp hg with ⟨hg', hcond⟩
    have hcond' : g.group_name ∈ cfg.roleGroups ∧ g.group_name ∉ mappedNames cfg groups := by
      simpa using hcond
    have hname : (mkRole g (cfg.categoryOf g.group_name)).role_name = g.group_name := rfl
    rw [hname] at hn
    exact hcond'.2 (mem_mappedNames.mpr ⟨g, hg', rfl, hn⟩)

/-- Per-name record count of `create_role_mappings`: every eligible name
produces exactly one role record per group row bearing it — in the leader
category through the first pass, and otherwise through the second pass
(whose skip-set never contains a name outside the leader category). -/
theorem create_role_mappings_count {cfg : GroupConfig} (groups : List GroupRow)
    {n : String} (hn : n ∈ cfg.roleGroups) :
    ((create_role_mappings cfg groups).filter (fun r => r.role_name == n)).length =
      (groups.filter (fun g => g.group_name == n)).length := by
  unfold create_role_mappings
  rw [List.filter_append, List.length_append]
  by_cases horig : n ∈ cfg.originalRoleGroups
  · have h1 : ((firstPass cfg groups).filter (fun r => r.role_name == n)).length =
        (groups.filter (fun g => g.group_name == n)).length := by
      unfold firstPass
      rw [List.filter_map, List.length_map, List.filter_filter]
      congr 1
      apply List.filter_congr
      intro g _
      by_cases hgn : g.group_name = n
      · simp [Function.comp, mkRole, hgn, horig]
      · simp [Function.comp, mkRole, hgn]
    have h2 : ((secondPass cfg groups).filter (fun r => r.role_name == n)).length = 0 := by
      unfold secondPass
      rw [List.filter_map, List.length_map, List.filter_filter, List.length_eq_zero]
      rw [List.filter_eq_nil_iff]
      intro g hg
      by_cases hgn : g.group_name = n
      · have hmap : g.group_name ∈ mappedNames cfg groups :=
          mem_mappedNames.mpr ⟨g, hg, rfl, hgn ▸ horig⟩
        simp only [Function.comp, mkRole, hgn]
        simp
        exact fun _ => hgn ▸ hmap
      · simp [Function.comp, mkRole, hgn]
    omega
  · have h1 : ((firstPass cfg groups).filter (fun r => r.role_name == n)).length = 0 := by
      unfold firstPass
      rw [List.filter_map, List.length_map, List.filter_filter, List.length_eq_zero]
      rw [List.filter_eq_nil_iff]
      intro g hg
      by_cases hgn : g.group_name = n
      · simp [Function.comp, mkRole, hgn]
        exact horig
      · simp [Function.comp, mkRole, hgn]
    have h2 : ((secondPass cfg groups).filter (fun r => r.role_name == n)).length =
        (groups.filter (fun g => g.group_name == n)).length := by
      unfold secondPass
      rw [List.filter_map, List.length_map, List.filter_filter]
      congr 1
      apply List.filter_congr
      intro g hg
      by_cases hgn : g.group_name = n
      · have hmap : g.group_name ∉ mappedNames cfg groups := by
          rw [hgn]
          intro hmem
          rcases mem_mappedNames.mp hmem with ⟨g', _, _, horig'⟩
          exact horig horig'
        simp [Function.comp, mkRole, hgn]
        exact ⟨hn, hgn ▸ hmap⟩
      · simp [Function.comp, mkRole, hgn]
    omega

/-- A group row with an exactly matching eligible name always yields a role
record bearing that name. -/
theorem create_role_mappings_exists {cfg : GroupConfig} {groups : List GroupRow}
    {g : GroupRow} (hg : g ∈ groups) (hn : g.group_name ∈ cfg.roleGroups) :
    ∃ r ∈ create_role_mappings cfg groups, r.role_name = g.group_name := by
  have hcount := create_role_mappings_count groups hn
  have hpos : 0 < (groups.filter (fun x => x.group_name == g.group_name)).length := by
    exact List.length_pos_of_mem (List.mem_filter.mpr ⟨hg, by simp⟩)
  rw [← hcount] at hpos
  rcases List.exists_mem_of_length_pos hpos with ⟨r, hr⟩
  rcases List.mem_filter.mp hr with ⟨hr', hrn⟩
  exact ⟨r, hr', by simpa using hrn⟩

/-- Every role record built by `create_role_mappings` takes both its id and
its name from a group row whose name is eligible by exact (case-sensitive)
string match. -/
theorem create_role_mappings_sound {cfg : GroupConfig} {groups : List GroupRow}
    {r : Role} (hr : r ∈ create_role_mappings cfg groups) :
    ∃ g ∈ groups, r.role_id = g.group_id ∧ r.role_name = g.group_name ∧
      g.group_name ∈ cfg.roleGroups := by
  rcases List.mem_append.mp hr with h | h
  · rcases List.mem_map.mp h with ⟨g, hg, rfl⟩
    rcases List.mem_filter.mp hg with ⟨hg', horig⟩
    refine ⟨g, hg', rfl, rfl, ?_⟩
    unfold GroupConfig.roleGroups
    exact List.mem_append.mpr (Or.inl (by simpa using horig))
  · rcases List.mem_map.mp h with ⟨g, hg, rfl⟩
    rcases List.mem_filter.mp hg with ⟨hg', hcond⟩
    have hcond' : g.group_name ∈ cfg.roleGroups ∧ g.group_name ∉ mappedNames cfg groups := by
      simpa using hcond
    exact ⟨g, hg', rfl, rfl, hcond'.1⟩

/-! ### Correctness of the cycle-detection DFS -/

theorem childrenOf_mem {edges : List (String × String)} {node c : String} :
    c ∈ childrenOf edges node ↔ Edge edges node c := by
  unfold childrenOf Edge
  rw [mem_uniq]
  constructor
  · intro h
    rcases List.mem_map.mp h with ⟨e, he, rfl⟩
    rcases List.mem_filter.mp he with ⟨he', hkey⟩
    have : e.1 = node := by simpa using hkey
    rwa [← this, Prod.mk.eta]
  · intro h
    exact List.mem_map.mpr ⟨(node, c), List.mem_filter.mpr ⟨h, by simp⟩, rfl⟩

/-- A node all of whose successors are safe is itself safe. -/
theorem safe_of_children {edges : List (String × String)} {node : String}
    (h : ∀ c, Edge edges node c → Safe edges c) : Safe edges node := by
  intro y hreach hcyc
  rcases Relation.ReflTransGen.cases_head hreach with heq | ⟨c, hstep, hrest⟩
  · subst heq
    rcases Relation.TransGen.head'_iff.mp hcyc with ⟨c, hstep, hrest⟩
    exact h c hstep node hrest hcyc
  · exact h c hstep y hrest hcyc

theorem giMeasure_antitone {edges : List (String × String)} {g : String}
    {v w : List String} (h : ∀ x ∈ v, x ∈ w) :
    giMeasure edges g w ≤ giMeasure edges g v := by
  unfold giMeasure
  apply Finset.card_le_card
  intro x hx
  rcases Finset.mem_sdiff.mp hx with ⟨hx1, hx2⟩
  refine Finset.mem_sdiff.mpr ⟨hx1, fun hm => hx2 ?_⟩
  exact List.mem_toFinset.mpr (h x (List.mem_toFinset.mp hm))

/-- Soundness of the DFS at one node: a `True` result means the graph has
a directed cycle, provided every node on the current path reaches the node
under examination. -/
theorem hasCycleNode_true {edges : List (String × String)} :
    ∀ (fuel : Nat) (node : String) (visited path : List String) (v' : List String),
      (∀ p ∈ path, Reaches edges p node) →
      hasCycleNode edges fuel node visited path = some (true, v') →
      hasDirectedCycle edges := by
  intro fuel
  induction fuel with
  | zero => intro node visited path v' _ h; exact absurd h (by simp [hasCycleNode])
  | succ fuel ih =>
    intro node visited path v' hpath h
    rw [hasCycleNode] at h
    have hcs : ∀ c ∈ childrenOf edges node, Edge edges node c :=
      fun c hc => childrenOf_mem.mp hc
    have hpath' : ∀ p ∈ node :: path, Reaches edges p node := by
      intro p hp
      rcases List.mem_cons.mp hp with rfl | hp
      · exact Relation.ReflTransGen.refl
      · exact hpath p hp
    clear hpath
    revert h
    revert hcs
    generalize childrenOf edges node = cs
    generalize node :: visited = v
    induction cs generalizing v with
    | nil => intro _ h; simp [dfsLoop] at h
    | cons c rest ihc =>
      intro hcs h
      rw [dfsLoop] at h
      by_cases hcv : c ∈ v
      · rw [if_pos hcv] at h
        by_cases hcp : c ∈ node :: path
        · rw [if_pos hcp] at h
          rcases List.mem_cons.mp hcp with rfl | hcp'
          · exact ⟨c, Relation.TransGen.single (hcs c (List.mem_cons_self c rest))⟩
          · refine ⟨c, Relation.TransGen.tail' ?_ (hcs c (List.mem_cons_self c rest))⟩
            exact hpath' c (List.mem_cons_of_mem _ hcp')
        · rw [if_neg hcp] at h
          exact ihc v (fun d hd => hcs d (List.mem_cons_of_mem _ hd)) h
      · rw [if_neg hcv] at h
        rcases hstep : hasCycleNode edges fuel c v (node :: path) with _ | ⟨b, v''⟩
        · rw [hstep] at h; cases h
        · rw [hstep] at h
          cases b with
          | true =>
            refine ih c v (node :: path) v'' ?_ hstep
            intro p hp
            rcases List.mem_cons.mp hp with rfl | hp'
            · exact Relation.ReflTransGen.single (hcs c (List.mem_cons_self c rest))
            · exact Relation.ReflTransGen.trans (hpath' p hp)
                (Relation.ReflTransGen.single (hcs c (List.mem_cons_self c rest)))
          | false =>
            exact ihc v'' (fun d hd => hcs d (List.mem_cons_of_mem _ hd)) h

/-- Soundness of the outer DFS loop. -/
theorem hasCyclesTop_true {edges : List (String × String)} {fuel : Nat} :
    ∀ (ks v : List String) (v' : List String),
      hasCyclesTop edges fuel ks v = some (true, v') → hasDirectedCycle edges := by
  intro ks
  induction ks with
  | nil => intro v v' h; simp [hasCyclesTop] at h
  | cons k ks ih =>
    intro v v' h
    rw [hasCyclesTop] at h
    by_cases hkv : k ∈ v
    · rw [if_pos hkv] at h
      exact ih v v' h
    · rw [if_neg hkv] at h
      rcases hstep : hasCycleNode edges fuel k v [] with _ | ⟨b, v''⟩
      · rw [hstep] at h; cases h
      · rw [hstep] at h
        cases b with
        | true => exact hasCycleNode_true fuel k v [] v'' (by simp) hstep
        | false => exact ih v'' v' h

theorem childrenOf_subset_nodes {edges : List (String × String)} {node c : String}
    (h : c ∈ childrenOf edges node) : c ∈ nodesFinset edges := by
  have he : (node, c) ∈ edges := childrenOf_mem.mp h
  simp only [nodesFinset, nodesOf, List.mem_toFinset, List.mem_append, List.mem_map]
  exact Or.inr ⟨(node, c), he, rfl⟩

/-- The DFS only ever adds to the visited set. -/
theorem hasCycleNode_mono {edges : List (String × String)} :
    ∀ (fuel : Nat) (node : String) (visited path v' : List String),
      hasCycleNode edges fuel node visited path = some (false, v') →
      ∀ x ∈ node :: visited, x ∈ v' := by
  intro fuel
  induction fuel with
  | zero => intro node visited path v' h; exact absurd h (by simp [hasCycleNode])
  | succ fuel ih =>
    intro node visited path v' h
    rw [hasCycleNode] at h
    revert h
    generalize childrenOf edges node = cs
    generalize node :: visited = v
    induction cs generalizing v with
    | nil =>
      intro h x hx
      simp only [dfsLoop, Option.some.injEq, Prod.mk.injEq] at h
      exact h.2 ▸ hx
    | cons c rest ihc =>
      intro h x hx
      rw [dfsLoop] at h
      by_cases hcv : c ∈ v
      · rw [if_pos hcv] at h
        by_cases hcp : c ∈ node :: path
        · rw [if_pos hcp] at h; simp at h
        · rw [if_neg hcp] at h
          exact ihc v h x hx
      · rw [if_neg hcv] at h
        rcases hstep : hasCycleNode edges fuel c v (node :: path) with _ | ⟨b, v''⟩
        · rw [hstep] at h; cases h
        · rw [hstep] at h
          cases b with
          | true => simp at h
          | false =>
            exact ihc v'' h x (ih c v (node :: path) v'' hstep x (List.mem_cons_of_mem _ hx))

/-- Fuel sufficiency of the DFS at one node: with more fuel than the
measure, the search completes.  The per-call visited set grows strictly
inside the finite universe of graph nodes. -/
theorem hasCycleNode_some {edges : List (String × String)} :
    ∀ (fuel : Nat) (node : String) (visited path : List String),
      node ∉ visited → giMeasure edges node visited < fuel →
      ∃ res, hasCycleNode edges fuel node visited path = some res := by
  intro fuel
  induction fuel with
  | zero => intro node visited path _ h; exact absurd h (Nat.not_lt_zero _)
  | succ fuel ih =>
    intro node visited path hnv hlt
    rw [hasCycleNode]
    have haux : ∀ (cs : List String), (∀ c ∈ cs, c ∈ nodesFinset edges) →
        ∀ (v₀ : List String), (∀ x ∈ node :: visited, x ∈ v₀) →
        ∃ res, dfsLoop (fun c v => hasCycleNode edges fuel c v (node :: path))
          (node :: path) cs v₀ = some res := by
      intro cs
      induction cs with
      | nil => intro _ v₀ _; exact ⟨(false, v₀), rfl⟩
      | cons c rest ihc =>
        intro hcs v₀ hsub0
        rw [dfsLoop]
        by_cases hcv : c ∈ v₀
        · rw [if_pos hcv]
          by_cases hcp : c ∈ node :: path
          · rw [if_pos hcp]; exact ⟨(true, v₀), rfl⟩
          · rw [if_neg hcp]
            exact ihc (fun d hd => hcs d (List.mem_cons_of_mem _ hd)) v₀ hsub0
        · rw [if_neg hcv]
          have hclt : giMeasure edges c v₀ < fuel := by
            have h1 : giMeasure edges c v₀ ≤ giMeasure edges c (node :: visited) :=
              giMeasure_antitone (fun x hx => hsub0 x hx)
            have h2 : giMeasure edges c (node :: visited) < giMeasure edges node visited :=
              giMeasure_step (hcs c (List.mem_cons_self c rest)) hnv
            omega
          obtain ⟨res, hres⟩ := ih c v₀ (node :: path) hcv hclt
          rw [hres]
          rcases res with ⟨b, v''⟩
          cases b with
          | true => exact ⟨(true, v''), rfl⟩
          | false =>
            refine ihc (fun d hd => hcs d (List.mem_cons_of_mem _ hd)) v'' ?_
            intro x hx
            exact hasCycleNode_mono fuel c v₀ (node :: path) v'' hres x
              (List.mem_cons_of_mem _ (hsub0 x hx))
    exact haux (childrenOf edges node) (fun c hc => childrenOf_subset_nodes hc)
      (node :: visited) (fun x hx => hx)

/-- Fuel sufficiency of the outer DFS loop at the wrapper's budget. -/
theorem hasCyclesTop_some {edges : List (String × String)} :
    ∀ (ks v : List String), (∀ k ∈ ks, k ∈ nodesFinset edges) →
      ∃ res, hasCyclesTop edges (dfsFuel edges) ks v = some res := by
  intro ks
  induction ks with
  | nil => intro v _; exact ⟨(false, v), rfl⟩
  | cons k ks ih =>
    intro v hks
    rw [hasCyclesTop]
    by_cases hkv : k ∈ v
    · rw [if_pos hkv]
      exact ih v (fun x hx => hks x (List.mem_cons_of_mem _ hx))
    · rw [if_neg hkv]
      have hklt : giMeasure edges k v < dfsFuel edges := by
        have hk : k ∈ nodesFinset edges := hks k (List.mem_cons_self k ks)
        have h1 : giMeasure edges k v ≤ (insert k (nodesFinset edges)).card :=
          Finset.card_le_card (Finset.sdiff_subset)
        rw [Finset.insert_eq_self.mpr hk] at h1
        unfold dfsFuel
        omega
      obtain ⟨res, hres⟩ := hasCycleNode_some (dfsFuel edges) k v [] hkv hklt
      rw [hres]
      rcases res with ⟨b, v''⟩
      cases b with
      | true => exact ⟨(true, v''), rfl⟩
      | false => exact ih v'' (fun x hx => hks x (List.mem_cons_of_mem _ hx))

/-- Completeness invariant of the DFS at one node: on a `False` return,
the visited set has absorbed the node, and every visited node off the
current path is safe — in particular the node itself. -/
theorem hasCycleNode_false {edges : List (String × String)} :
    ∀ (fuel : Nat) (node : String) (visited path v' : List String),
      hasCycleNode edges fuel node visited path = some (false, v') →
      (∀ x ∈ visited, x ∉ path → Safe edges x) →
      (∀ p ∈ path, p ∈ visited) →
      (∀ x ∈ node :: visited, x ∈ v') ∧ (∀ x ∈ v', x ∉ path → Safe edges x) := by
  intro fuel
  induction fuel with
  | zero => intro node visited path v' h; exact absurd h (by simp [hasCycleNode])
  | succ fuel ih =>
    intro node visited path v' h hblack hpathsub
    rw [hasCycleNode] at h
    have haux :
        ∀ (cs : List String), (∀ c ∈ cs, Edge edges node c) →
        ∀ (v : List String),
          dfsLoop (fun c v => hasCycleNode edges fuel c v (node :: path)) (node :: path)
            cs v = some (false, v') →
          (∀ x ∈ v, x ∉ node :: path → Safe edges x) →
          (∀ p ∈ node :: path, p ∈ v) →
          (∀ x ∈ v, x ∈ v') ∧ (∀ x ∈ v', x ∉ node :: path → Safe edges x) ∧
            (∀ c ∈ cs, Safe edges c) := by
      intro cs
      induction cs with
      | nil =>
        intro _ v hloop hb hp
        simp only [dfsLoop, Option.some.injEq, Prod.mk.injEq] at hloop
        exact ⟨fun x hx => hloop.2 ▸ hx, hloop.2 ▸ hb, by simp⟩
      | cons c rest ihc =>
        intro hcs v hloop hb hp
        rw [dfsLoop] at hloop
        by_cases hcv : c ∈ v
        · rw [if_pos hcv] at hloop
          by_cases hcp : c ∈ node :: path
          · rw [if_pos hcp] at hloop; simp at hloop
          · rw [if_neg hcp] at hloop
            obtain ⟨L1, L2, L3⟩ :=
              ihc (fun d hd => hcs d (List.mem_cons_of_mem _ hd)) v hloop hb hp
            refine ⟨L1, L2, ?_⟩
            intro d hd
            rcases List.mem_cons.mp hd with rfl | hd'
            · exact hb d hcv hcp
            · exact L3 d hd'
        · rw [if_neg hcv] at hloop
          rcases hstep : hasCycleNode edges fuel c v (node :: path) with _ | ⟨b, v''⟩
          · rw [hstep] at hloop; cases hloop
          · rw [hstep] at hloop
            cases b with
            | true => simp at hloop
            | false =>
              obtain ⟨P1, P2⟩ := ih c v (node :: path) v'' hstep hb hp
              obtain ⟨L1, L2, L3⟩ :=
                ihc (fun d hd => hcs d (List.mem_cons_of_mem _ hd)) v'' hloop P2
                  (fun p hp' => P1 p (List.mem_cons_of_mem _ (hp p hp')))
              have hcpath : c ∉ node :: path := fun hmem => hcv (hp c hmem)
              refine ⟨fun x hx => L1 x (P1 x (List.mem_cons_of_mem _ hx)), L2, ?_⟩
              intro d hd
              rcases List.mem_cons.mp hd with rfl | hd'
              · exact L2 d (L1 d (P1 d (List.mem_cons_self d v))) hcpath
              · exact L3 d hd'
    have hb' : ∀ x ∈ node :: visited, x ∉ node :: path → Safe edges x := by
      intro x hx hxp
      rcases List.mem_cons.mp hx with rfl | hx'
      · exact absurd (List.mem_cons_self x path) hxp
      · exact hblack x hx' (fun hm => hxp (List.mem_cons_of_mem _ hm))
    have hp' : ∀ p ∈ node :: path, p ∈ node :: visited := by
      intro p hpm
      rcases List.mem_cons.mp hpm with rfl | hpm'
      · exact List.mem_cons_self p visited
      · exact List.mem_cons_of_mem _ (hpathsub p hpm')
    obtain ⟨L1, L2, L3⟩ :=
      haux (childrenOf edges node) (fun c hc => childrenOf_mem.mp hc)
        (node :: visited) h hb' hp'
    have hsafe : Safe edges node :=
      safe_of_children (fun c hc => L3 c (childrenOf_mem.mpr hc))
    refine ⟨L1, ?_⟩
    intro x hx hxp
    by_cases hxn : x = node
    · exact hxn ▸ hsafe
    · exact L2 x hx (by simp [hxn, hxp])

/-- Completeness invariant of the outer DFS loop: a `False` run leaves
every visited node, and every scanned start node, safe. -/
theorem hasCyclesTop_false {edges : List (String × String)} {fuel : Nat} :
    ∀ (ks v v' : List String),
      hasCyclesTop edges fuel ks v = some (false, v') →
      (∀ x ∈ v, Safe edges x) →
      (∀ x ∈ v', Safe edges x) ∧ (∀ k ∈ ks, Safe edges k) := by
  intro ks
  induction ks with
  | nil =>
    intro v v' h hb
    simp only [hasCyclesTop, Option.some.injEq, Prod.mk.injEq] at h
    exact ⟨h.2 ▸ hb, by simp⟩
  | cons k ks ih =>
    intro v v' h hb
    rw [hasCyclesTop] at h
    by_cases hkv : k ∈ v
    · rw [if_pos hkv] at h
      obtain ⟨H1, H2⟩ := ih v v' h hb
      refine ⟨H1, ?_⟩
      intro d hd
      rcases List.mem_cons.mp hd with rfl | hd'
      · exact hb d hkv
      · exact H2 d hd'
    · rw [if_neg hkv] at h
      rcases hstep : hasCycleNode edges fuel k v [] with _ | ⟨b, v''⟩
      · rw [hstep] at h; cases h
      · rw [hstep] at h
        cases b with
        | true => simp at h
        | false =>
          obtain ⟨P1, P2⟩ := hasCycleNode_false fuel k v [] v'' hstep
            (fun x hx _ => hb x hx) (by simp)
          have hb'' : ∀ x ∈ v'', Safe edges x := fun x hx => P2 x hx (by simp)
          obtain ⟨H1, H2⟩ := ih v'' v' h hb''
          refine ⟨H1, ?_⟩
          intro d hd
          rcases List.mem_cons.mp hd with rfl | hd'
          · exact hb'' d (P1 d (List.mem_cons_self d v))
          · exact H2 d hd'

/-- Soundness of `_has_circular_references`: a `True` report implies a
directed cycle. -/
theorem has_circular_references_sound {edges : List (String × String)}
    (h : has_circular_references edges = true) : hasDirectedCycle edges := by
  unfold has_circular_references at h
  by_cases he : edges.isEmpty
  · rw [if_pos he] at h; cases h
  · rw [if_neg he] at h
    rcases heq : hasCyclesTop edges (dfsFuel edges) (uniq (edges.map Prod.fst)) []
      with _ | ⟨b, vf⟩
    · rw [heq] at h; cases h
    · rw [heq] at h
      cases b with
      | true => exact hasCyclesTop_true (uniq (edges.map Prod.fst)) [] vf heq
      | false => cases h

/-- Completeness of `_has_circular_references`: a `False` report implies
the graph is acyclic. -/
theorem has_circular_references_complete {edges : List (String × String)}
    (h : has_circular_references edges = false) : ¬ hasDirectedCycle edges := by
  unfold has_circular_references at h
  by_cases he : edges.isEmpty
  · have : edges = [] := List.isEmpty_iff.mp he
    subst this
    rintro ⟨y, hcyc⟩
    rcases Relation.TransGen.head'_iff.mp hcyc with ⟨c, hstep, _⟩
    exact absurd hstep (by simp [Edge])
  · rw [if_neg he] at h
    have hks : ∀ k ∈ uniq (edges.map Prod.fst), k ∈ nodesFinset edges := by
      intro k hk
      simp only [nodesFinset, nodesOf, List.mem_toFinset, List.mem_append]
      exact Or.inl (mem_uniq.mp hk)
    obtain ⟨res, hres⟩ := hasCyclesTop_some (uniq (edges.map Prod.fst)) [] hks
    rw [hres] at h
    rcases res with ⟨b, vf⟩
    cases b with
    | true => cases h
    | false =>
      obtain ⟨_, H2⟩ := hasCyclesTop_false (uniq (edges.map Prod.fst)) [] vf hres (by simp)
      rintro ⟨y, hcyc⟩
      rcases Relation.TransGen.head'_iff.mp hcyc with ⟨c, hstep, _⟩
      have hy : y ∈ uniq (edges.map Prod.fst) :=
        mem_uniq.mpr (List.mem_map.mpr ⟨(y, c), hstep, rfl⟩)
      exact H2 y hy y Relation.ReflTransGen.refl hcyc

/-- `_has_circular_references` reports `True` exactly when the parent→child
graph contains a directed cycle. -/
theorem has_circular_references_iff {edges : List (String × String)} :
    has_circular_references edges = true ↔ hasDirectedCycle edges := by
  constructor
  · exact has_circular_references_sound
  · intro hcyc
    by_contra hfalse
    exact has_circular_references_complete
      (Bool.not_eq_true _ ▸ Bool.of_not_eq_true hfalse) hcyc

/-! ### Lemmas about the validators and the pipeline gate -/

theorem circular_not_mem_validate_users (t : Table) :
    VErr.circularReference ∉ validate_users t := by
  unfold validate_users
  intro h
  rcases List.mem_append.mp h with h | h
  · rcases List.mem_append.mp h with h | h
    · rcases List.mem_append.mp h with h | h
      · rcases List.mem_filterMap.mp h with ⟨f, _, hf⟩
        split at hf
        · cases hf
        · cases hf
      · split at h <;> simp_all
    · split at h <;> simp_all
  · rcases List.mem_flatMap.mp h with ⟨f, _, hf⟩
    split at hf
    · split at hf
      · split at hf <;> simp_all
      · simp_all
    · simp_all

theorem circular_not_mem_validate_groups (t : Table) :
    VErr.circularReference ∉ validate_groups t := by
  unfold validate_groups
  intro h
  rcases List.mem_append.mp h with h | h <;> (split at h <;> simp_all)

theorem circular_not_mem_validate_roles (t : Table) :
    VErr.circularReference ∉ validate_roles t := by
  unfold validate_roles
  intro h
  rcases List.mem_append.mp h with h | h <;> (split at h <;> simp_all)

theorem circular_not_mem_validateRequiredCols (colNames : List String) (t : Table) :
    VErr.circularReference ∉ validateRequiredCols colNames t := by
  unfold validateRequiredCols
  intro h
  rcases List.mem_flatMap.mp h with ⟨c, _, hc⟩
  split at hc
  · simp_all
  · split at hc <;> simp_all

/-- No per-table schema validator ever reports the circular-reference
error: that message is produced only by `validate_relationships`. -/
theorem circular_not_mem_validate_dataframe (t : Table) (schema : String) :
    VErr.circularReference ∉ validate_dataframe t schema := by
  unfold validate_dataframe
  intro h
  split at h
  · simp_all
  · split at h
    · exact circular_not_mem_validate_users t h
    · split at h
      · exact circular_not_mem_validate_groups t h
      · split at h
        · exact circular_not_mem_validate_roles t h
        · split at h
          · exact circular_not_mem_validateRequiredCols _ t h
          · split at h
            · exact circular_not_mem_validateRequiredCols _ t h
            · split at h
              · exact circular_not_mem_validateRequiredCols _ t h
              · split at h
                · exact circular_not_mem_validateRequiredCols _ t h
                · simp_all

/-- The gate collected by `process_input` never contains a cycle error. -/
theorem circular_not_mem_process_input_errors
    (users groups userGroups groupGroups : Table) :
    VErr.circularReference ∉
      process_input_validation_errors users groups userGroups groupGroups := by
  unfold process_input_validation_errors
  intro h
  rcases List.mem_append.mp h with h | h
  · rcases List.mem_append.mp h with h | h
    · rcases List.mem_append.mp h with h | h
      · exact circular_not_mem_validate_dataframe _ _ h
      · exact circular_not_mem_validate_dataframe _ _ h
    · exact circular_not_mem_validate_dataframe _ _ h
  · exact circular_not_mem_validate_dataframe _ _ h

/-- The cycle error appears in the relationship-validation report exactly
when the DFS reports a cycle. -/
theorem circular_mem_validate_relationships
    {userIds groupIds : Finset String} {memberships hierarchy : List (String × String)} :
    VErr.circularReference ∈
        validate_relationships userIds groupIds memberships hierarchy ↔
      has_circular_references hierarchy = true := by
  unfold validate_relationships
  constructor
  · intro h
    rcases List.mem_append.mp h with h | h
    · rcases List.mem_append.mp h with h | h <;> (split at h <;> simp_all)
    · split at h
      · simp_all
      · rcases List.mem_append.mp h with h | h
        · rcases List.mem_append.mp h with h | h <;> (split at h <;> simp_all)
        · split at h <;> simp_all
  · intro h
    by_cases hemp : hierarchy.isEmpty
    · have : hierarchy = [] := List.isEmpty_iff.mp hemp
      subst this
      simp [has_circular_references] at h
    · refine List.mem_append.mpr (Or.inr ?_)
      rw [if_neg hemp]
      refine List.mem_append.mpr (Or.inr ?_)
      rw [if_pos h]
      exact List.mem_singleton.mpr rfl

/-- At most one cycle error is ever reported, however many cycles exist. -/
theorem circular_count_validate_relationships
    (userIds groupIds : Finset String) (memberships hierarchy : List (String × String)) :
    (validate_relationships userIds groupIds memberships hierarchy).count
        VErr.circularReference ≤ 1 := by
  unfold validate_relationships
  rw [List.count_append, List.count_append]
  have hA : (if (memberships.map Prod.fst).toFinset \ userIds = ∅ then []
      else [VErr.invalidUserIds ((memberships.map Prod.fst).toFinset \ userIds)]).count
        VErr.circularReference = 0 := by
    rw [List.count_eq_zero]
    split <;> simp
  have hB : (if (memberships.map Prod.snd).toFinset \ groupIds = ∅ then []
      else [VErr.invalidGroupIds ((memberships.map Prod.snd).toFinset \ groupIds)]).count
        VErr.circularReference = 0 := by
    rw [List.count_eq_zero]
    split <;> simp
  have hC : (if hierarchy.isEmpty then []
      else
        (if (hierarchy.map Prod.fst).toFinset \ groupIds = ∅ then []
         else [VErr.invalidParentIds ((hierarchy.map Prod.fst).toFinset \ groupIds)]) ++
        (if (hierarchy.map Prod.snd).toFinset \ groupIds = ∅ then []
         else [VErr.invalidChildIds ((hierarchy.map Prod.snd).toFinset \ groupIds)]) ++
        (if has_circular_references hierarchy then [VErr.circularReference]
         else [])).count VErr.circularReference ≤ 1 := by
    split
    · simp
    · rw [List.count_append, List.count_append]
      have hc1 : (if (hierarchy.map Prod.fst).toFinset \ groupIds = ∅ then []
          else [VErr.invalidParentIds ((hierarchy.map Prod.fst).toFinset \ groupIds)]).count
            VErr.circularReference = 0 := by
        rw [List.count_eq_zero]
        split <;> simp
      have hc2 : (if (hierarchy.map Prod.snd).toFinset \ groupIds = ∅ then []
          else [VErr.invalidChildIds ((hierarchy.map Prod.snd).toFinset \ groupIds)]).count
            VErr.circularReference = 0 := by
        rw [List.count_eq_zero]
        split <;> simp
      have hc3 : (if has_circular_references hierarchy then [VErr.circularReference]
          else []).count VErr.circularReference ≤ 1 := by
        split <;> simp
      omega
  omega

/-- The Users identifier check is column-level: the identifier error is
reported exactly when none of the three identifier columns exists, whatever
the rows contain. -/
theorem noUserIdentifier_mem_validate_dataframe {t : Table}
    (h : t.isEmpty = false) :
    VErr.noUserIdentifier ∈ validate_dataframe t "Users" ↔
      ("user_id" ∉ t.cols ∧ "username" ∉ t.cols ∧ "email" ∉ t.cols) := by
  unfold validate_dataframe
  rw [if_neg (by simp [h])]
  rw [if_pos (by rfl)]
  unfold validate_users
  constructor
  · intro hm
    rcases List.mem_append.mp hm with hm | hm
    · rcases List.mem_append.mp hm with hm | hm
      · rcases List.mem_append.mp hm with hm | hm
        · rcases List.mem_filterMap.mp hm with ⟨f, _, hf⟩
          split at hf
          · cases hf
          · cases hf
        · by_cases hid : "user_id" ∈ t.cols ∨ "username" ∈ t.cols ∨ "email" ∈ t.cols
          · rw [if_pos hid] at hm; cases hm
          · push_neg at hid
            exact ⟨hid.1, hid.2.1, hid.2.2⟩
      · split at hm <;> simp_all
    · rcases List.mem_flatMap.mp hm with ⟨f, _, hf⟩
      split at hf
      · split at hf
        · split at hf <;> simp_all
        · simp_all
      · simp_all
  · intro ⟨h1, h2, h3⟩
    refine List.mem_append.mpr (Or.inl (List.mem_append.mpr (Or.inl
      (List.mem_append.mpr (Or.inr ?_)))))
    rw [if_neg (by push_neg; exact ⟨h1, h2, h3⟩)]
    exact List.mem_singleton.mpr rfl

/-- The pipeline gate fires exactly on a non-empty schema report. -/
theorem process_input_gate_iff (users groups userGroups groupGroups : Table) :
    process_input_invokes_resolution users groups userGroups groupGroups = true ↔
      process_input_validation_errors users groups userGroups groupGroups = [] := by
  unfold process_input_invokes_resolution
  exact List.isEmpty_iff

/-! ### Claim theorems -/

/-- C1 (counterexample): the claim says the closed group-role table always
contains every direct pair — in particular for a group holding a role
directly but absent from the hierarchy edges.  With the direct role holder
G1 and an edge table not mentioning G1, `resolve_group_roles` omits the
direct pair (G1, G1): the source iterates only over group ids occurring in
the edge table. -/
theorem claim_C1_counterexample :
    "G1" ∈ (["G1"] : List String) ∧
      ("G1", "G1") ∉ resolve_group_roles ["G1"] [("G2", "G3")] ∧
      ("G1", "G1") ∉ resolve_group_roles ["G1"] [] := by
  refine ⟨by decide, by decide, by decide⟩

/-- C1 (amended): the closed table contains the direct pair (g, g) of every
direct role holder g that occurs somewhere in the hierarchy edge table;
a direct holder absent from the edges is absent from the output. -/
theorem claim_C1 (roleIds : List String) (edges : List (String × String)) (g : String)
    (hrole : g ∈ roleIds) (hnode : g ∈ nodesOf edges) :
    (g, g) ∈ resolve_group_roles roleIds edges :=
  resolve_group_roles_mem_direct hrole hnode

/-- Witness for C1 at a concrete input. -/
theorem claim_C1_witness :
    "G1" ∈ (["G1"] : List String) ∧ "G1" ∈ nodesOf [("G1", "G2")] ∧
      ("G1", "G1") ∈ resolve_group_roles ["G1"] [("G1", "G2")] :=
  ⟨by decide, by decide, claim_C1 ["G1"] [("G1", "G2")] "G1" (by decide) (by decide)⟩

/-- C2 (code evaluated at the failing input): on a schema-valid input whose
hierarchy rows form the 2-cycle G1→G2→G1, the validation report collected
by `process_input` is empty — in particular it contains no cycle error —
and control reaches resolution (`create_role_mappings`), even though the
edge table has a directed cycle that `_has_circular_references` (which
`process_input` never calls) would detect. -/
theorem claim_C2 :
    process_input_validation_errors usersCyc groupsCyc userGroupsCyc groupGroupsCyc = [] ∧
    process_input_invokes_resolution usersCyc groupsCyc userGroupsCyc groupGroupsCyc = true ∧
    VErr.circularReference ∉
      process_input_validation_errors usersCyc groupsCyc userGroupsCyc groupGroupsCyc ∧
    groupGroupsCyc.rows.map (fun r =>
      ((getCell r "parent_group_id").getD "", (getCell r "child_group_id").getD "")) =
        edgesCyc ∧
    hasDirectedCycle edgesCyc ∧
    has_circular_references edgesCyc = true := by
  refine ⟨by decide, by decide, by decide, by decide, ?_, by decide⟩
  have h1 : Edge edgesCyc "G1" "G2" := by
    show ("G1", "G2") ∈ edgesCyc
    decide
  have h2 : Edge edgesCyc "G2" "G1" := by
    show ("G2", "G1") ∈ edgesCyc
    decide
  exact ⟨"G1", Relation.TransGen.head h1 (Relation.TransGen.single h2)⟩

/-- C3 (counterexample): the claim says a Users row populating none of the
three identifier fields yields an error naming them.  On a table whose
identifier columns all exist but whose single row has all three cells
null, `validate_dataframe` returns no error at all: the identifier check
is column-level only. -/
theorem claim_C3_counterexample :
    rowNoId ∈ usersNoIdRow.rows ∧
    getCell rowNoId "user_id" = none ∧
    getCell rowNoId "username" = none ∧
    getCell rowNoId "email" = none ∧
    "user_id" ∈ usersNoIdRow.cols ∧
    "username" ∈ usersNoIdRow.cols ∧
    "email" ∈ usersNoIdRow.cols ∧
    validate_dataframe usersNoIdRow "Users" = [] := by
  refine ⟨by decide, by decide, by decide, by decide, by decide, by decide, by decide,
    by decide⟩

/-- C3 (amended): the Users identifier check is column-level: for a
non-empty table, the error naming the three identifier fields is reported
exactly when none of the columns `user_id`, `username`, `email` exists —
row contents never trigger it.  In particular a table carrying only the
`email` column passes the check. -/
theorem claim_C3 (t : Table) (h : t.isEmpty = false) :
    VErr.noUserIdentifier ∈ validate_dataframe t "Users" ↔
      ("user_id" ∉ t.cols ∧ "username" ∉ t.cols ∧ "email" ∉ t.cols) :=
  noUserIdentifier_mem_validate_dataframe h

/-- Witness for C3 at a concrete email-only table. -/
theorem claim_C3_witness :
    usersEmailOnly.isEmpty = false ∧
      (VErr.noUserIdentifier ∈ validate_dataframe usersEmailOnly "Users" ↔
        ("user_id" ∉ usersEmailOnly.cols ∧ "username" ∉ usersEmailOnly.cols ∧
          "email" ∉ usersEmailOnly.cols)) :=
  ⟨by decide, claim_C3 usersEmailOnly (by decide)⟩

/-- C4 (counterexample): the claim says eligibility matching is
case-insensitive.  A group named `administrators` — equal to the
configured eligible name `Administrators` up to letter case — produces no
role record: the source tests literal set membership. -/
theorem claim_C4_counterexample :
    "administrators".toList.map Char.toLower = "Administrators".toList.map Char.toLower ∧
    "administrators" ≠ "Administrators" ∧
    create_role_mappings ⟨[("Original_Role_Groups", ["Administrators"])]⟩
      [⟨"G1", "administrators", some "d"⟩] = [] := by
  refine ⟨by decide, by decide, by decide⟩

/-- C4 (amended): eligibility matching is case-sensitive: a role record
bearing a group row's name is created exactly when the name occurs
literally (byte-for-byte) in the configured category lists. -/
theorem claim_C4 (cfg : GroupConfig) (groups : List GroupRow) (row : GroupRow)
    (hrow : row ∈ groups) (helig : row.group_name ∈ cfg.roleGroups) :
    ∃ r ∈ create_role_mappings cfg groups, r.role_name = row.group_name :=
  create_role_mappings_exists hrow helig

/-- Witness for C4 at a concrete input. -/
theorem claim_C4_witness :
    (⟨"G2", "Users", some "Regular Users"⟩ : GroupRow) ∈ groupsScenario ∧
    "Users" ∈ cfgScenario.roleGroups ∧
    ∃ r ∈ create_role_mappings cfgScenario groupsScenario, r.role_name = "Users" :=
  ⟨by decide, by decide,
    claim_C4 cfgScenario groupsScenario ⟨"G2", "Users", some "Regular Users"⟩
      (by decide) (by decide)⟩

/-- C5: on the spec's concrete scenario (G1 = Administrators eligible in
the leader category, G2 = Users eligible in a secondary category, G3 =
Custom not eligible, edges G1→G2 and G2→G3), `create_role_mappings`
produces exactly the two roles R(G1) and R(G2), and `resolve_group_roles`
produces exactly the five closed pairs
{(G1,G1), (G2,G1), (G2,G2), (G3,G1), (G3,G2)}. -/
theorem claim_C5 :
    create_role_mappings cfgScenario groupsScenario =
      [⟨"G1", "Administrators", "Admin Group", "Original_Role_Groups"⟩,
       ⟨"G2", "Users", "Regular Users", "Other_Groups"⟩] ∧
    (resolve_group_roles ((create_role_mappings cfgScenario groupsScenario).map
        Role.role_id) edgesScenario).toFinset =
      {("G1", "G1"), ("G2", "G1"), ("G2", "G2"), ("G3", "G1"), ("G3", "G2")} ∧
    (resolve_group_roles ((create_role_mappings cfgScenario groupsScenario).map
        Role.role_id) edgesScenario).Nodup := by
  refine ⟨by decide, by decide, by decide⟩

/-- C6: a group name in both the leader category and a secondary category
is recorded with source `Original_Role_Groups` on every record bearing it,
and exactly one record is created per group row bearing the name. -/
theorem claim_C6 (cfg : GroupConfig) (groups : List GroupRow) (n : String)
    (h1 : n ∈ cfg.originalRoleGroups) (_h2 : n ∈ cfg.secondaryGroups) :
    (∀ r ∈ create_role_mappings cfg groups, r.role_name = n →
      r.source = "Original_Role_Groups") ∧
    ((create_role_mappings cfg groups).filter (fun r => r.role_name == n)).length =
      (groups.filter (fun g => g.group_name == n)).length := by
  constructor
  · intro r hr hrn
    exact create_role_mappings_leader_source hr (hrn ▸ h1)
  · exact create_role_mappings_count groups
      (by unfold GroupConfig.roleGroups; exact List.mem_append.mpr (Or.inl h1))

/-- Witness for C6 at a concrete input where the name `Users` is in both
the leader and a secondary category. -/
theorem claim_C6_witness :
    "Users" ∈ (⟨[("Original_Role_Groups", ["Users"]), ("X", ["Users"])]⟩ :
        GroupConfig).originalRoleGroups ∧
    "Users" ∈ (⟨[("Original_Role_Groups", ["Users"]), ("X", ["Users"])]⟩ :
        GroupConfig).secondaryGroups ∧
    ((∀ r ∈ create_role_mappings ⟨[("Original_Role_Groups", ["Users"]), ("X", ["Users"])]⟩
        [⟨"G1", "Users", some "d"⟩], r.role_name = "Users" →
        r.source = "Original_Role_Groups") ∧
      ((create_role_mappings ⟨[("Original_Role_Groups", ["Users"]), ("X", ["Users"])]⟩
          [⟨"G1", "Users", some "d"⟩]).filter (fun r => r.role_name == "Users")).length =
        (([⟨"G1", "Users", some "d"⟩] : List GroupRow).filter
          (fun g => g.group_name == "Users")).length) :=
  ⟨by decide, by decide,
    claim_C6 ⟨[("Original_Role_Groups", ["Users"]), ("X", ["Users"])]⟩
      [⟨"G1", "Users", some "d"⟩] "Users" (by decide) (by decide)⟩

/-- C7: relationship validation reports the circular-reference error
exactly when the parent→child hierarchy graph has a directed cycle, and
reports it at most once however many cycles exist.  (In particular acyclic
diamonds are never reported, and the check is a total function.) -/
theorem claim_C7 (userIds groupIds : Finset String)
    (memberships hierarchy : List (String × String)) :
    (VErr.circularReference ∈
        validate_relationships userIds groupIds memberships hierarchy ↔
      hasDirectedCycle hierarchy) ∧
    (validate_relationships userIds groupIds memberships hierarchy).count
        VErr.circularReference ≤ 1 :=
  ⟨circular_mem_validate_relationships.trans has_circular_references_iff,
    circular_count_validate_relationships userIds groupIds memberships hierarchy⟩

/-- C8: the user-role join contains (u, r) exactly when user u belongs to
some group holding role r, and its output is duplicate-free — so a user in
several groups conferring the same role yields one row, and a user whose
groups confer no role yields none. -/
theorem claim_C8 (userGroups groupRoles : List (String × String)) :
    (∀ u r, (u, r) ∈ resolve_user_roles userGroups groupRoles ↔
      ∃ g, (u, g) ∈ userGroups ∧ (g, r) ∈ groupRoles) ∧
    (resolve_user_roles userGroups groupRoles).Nodup :=
  ⟨fun _ _ => resolve_user_roles_mem, resolve_user_roles_nodup userGroups groupRoles⟩

/-- C9: the recursive ancestor walk of `resolve_group_roles` terminates on
every finite hierarchy edge set, cyclic or not: at the wrapper's fuel
budget the walk always completes (the per-branch visited set grows
strictly inside the finite universe of group ids whenever the walk
recurses), and a group already in the visited set stops recursion
immediately, contributing no roles. -/
theorem claim_C9 (roleIds : List String) (edges : List (String × String)) (g : String) :
    (∃ s, getInheritedRoles roleIds edges (giFuel edges) g [] = some s) ∧
    (∀ (fuel : Nat) (visited : List String), g ∈ visited →
      getInheritedRoles roleIds edges (fuel + 1) g visited = some []) := by
  constructor
  · apply getInheritedRoles_total
    have : (nodesFinset edges \ (List.toFinset [])).card ≤ (nodesFinset edges).card :=
      Finset.card_le_card (Finset.sdiff_subset)
    unfold giFuel
    omega
  · intro fuel visited hv
    simp [getInheritedRoles, hv]

/-- C10 (counterexample): the claim says duplicate group names in a
secondary-only category are deduplicated (one record, later rows skipped).
With two rows both named `Users`, a name only in the secondary category,
`create_role_mappings` produces two records — the skip-set is computed
before the second loop and never updated inside it. -/
theorem claim_C10_counterexample :
    "Users" ∉ cfgDup.originalRoleGroups ∧
    "Users" ∈ cfgDup.secondaryGroups ∧
    ((create_role_mappings cfgDup groupsDup).filter
      (fun r => r.role_name == "Users")).length = 2 ∧
    ¬ ((create_role_mappings cfgDup groupsDup).filter
      (fun r => r.role_name == "Users")).length = 1 := by
  refine ⟨by decide, by decide, by decide, by decide⟩

/-- C10 (amended): there is no asymmetry between the leader and secondary
categories: for every eligible name, leader or secondary, each group row
bearing the name produces its own role record — duplicate names are never
collapsed. -/
theorem claim_C10 (cfg : GroupConfig) (groups : List GroupRow) (n : String)
    (hn : n ∈ cfg.roleGroups) :
    ((create_role_mappings cfg groups).filter (fun r => r.role_name == n)).length =
      (groups.filter (fun g => g.group_name == n)).length :=
  create_role_mappings_count groups hn

/-- Witness for C10 at the duplicate-name input. -/
theorem claim_C10_witness :
    "Users" ∈ cfgDup.roleGroups ∧
    ((create_role_mappings cfgDup groupsDup).filter
        (fun r => r.role_name == "Users")).length =
      (groupsDup.filter (fun g => g.group_name == "Users")).length :=
  ⟨by decide, claim_C10 cfgDup groupsDup "Users" (by decide)⟩

end BuildADRoles
